import Mathlib

/-!
# Frequency-domain analysis core of `control/freqplot.py`

A shallow embedding of the non-graphical analytical engine of the
`freqplot` module: automatic frequency-grid selection
(`_default_frequency_range`, `_determine_omega_vector`), Nyquist contour
construction with pole indentation (`nyquist_plot`), the encirclement
counter (`nyquist_plot`), and the phase post-processing of `bode_plot`
(initial-phase alignment and wrapping).

Real scalars are modelled by `ℝ`, complex scalars by `ℂ`; numpy array
operations become explicit list operations.  Fallible operations
(numpy exceptions such as `IndexError` on out-of-range indexing and
`ValueError` on `argmin` of an empty array) return `Except`.
-/

open Real

/-- Numpy closeness test `np.isclose(a, b)` with the default tolerances
`rtol = 1e-5`, `atol = 1e-8`. -/
def npIsClose (a b : ℝ) : Prop := |a - b| ≤ 1e-8 + 1e-5 * |b|

noncomputable instance (a b : ℝ) : Decidable (npIsClose a b) :=
  inferInstanceAs (Decidable (|a - b| ≤ 1e-8 + 1e-5 * |b|))

/-- Numpy rounding `np.rint` / `np.round(x, 0)`: round to the nearest
integer, halves to the nearest even integer. -/
noncomputable def nprint (x : ℝ) : ℤ :=
  if Int.fract x < 1/2 then ⌊x⌋
  else if 1/2 < Int.fract x then ⌊x⌋ + 1
  else if Even ⌊x⌋ then ⌊x⌋ else ⌊x⌋ + 1

/-- Numpy `np.linspace(a, b, n)` with `endpoint=True`. -/
noncomputable def linspace (a b : ℝ) (n : ℕ) : List ℝ :=
  (List.range n).map fun (k : ℕ) => a + (k : ℝ) * (b - a) / ((n : ℝ) - 1)

/-- Numpy `np.logspace(lo, hi, n)` with `endpoint=True`: `n` log-spaced samples
`10 ^ e` for `e` linearly spaced over `[lo, hi]`. -/
noncomputable def logspace (lo hi : ℝ) (n : ℕ) : List ℝ :=
  (linspace lo hi n).map fun e => (10 : ℝ) ^ e

/-- The slice of the LTI-system capability surface the core consumes:
timebase tag (`isCtime`/`sys.dt`) and pole/zero introspection.
`isCtime = false` models `sys.isdtime(strict=True)`. -/
structure LTISys where
  isCtime : Bool
  dt : ℝ
  poles : List ℂ
  zeros : List ℂ

/-- Continuous-time feature magnitudes of `_default_frequency_range`:
`|poles| ++ |zeros|` with values numerically indistinguishable from zero
removed (`freqplot.py` lines 1331-1337). -/
noncomputable def ctimeFeatures (sys : LTISys) : List ℝ :=
  ((sys.poles.map Complex.abs) ++ (sys.zeros.map Complex.abs)).filter
    fun f => !(decide (npIsClose f 0))

/-- Discrete-time feature magnitudes of `_default_frequency_range`:
poles and zeros on the non-positive real axis or at `1` are discarded,
the rest are mapped via `|log z / (i dt)|` (lines 1343-1354). -/
noncomputable def dtimeFeatures (sys : LTISys) : List ℝ :=
  (((sys.poles ++ sys.zeros).filter fun z =>
      !(decide (npIsClose z.im 0) &&
        (decide (z.re ≤ 0) || decide (|z.re - 1| < 1e-10)))).map
    fun z => Complex.abs (Complex.log z / (Complex.I * (sys.dt : ℂ))))

/-- Per-system feature contribution (lines 1328-1359). -/
noncomputable def sysFeatures (sys : LTISys) : List ℝ :=
  if sys.isCtime then ctimeFeatures sys else dtimeFeatures sys

/-- All features accumulated over the system list (line 1359). -/
noncomputable def allFeatures (syslist : List LTISys) : List ℝ :=
  (syslist.map sysFeatures).flatten

/-- The near-Nyquist interest frequencies `0.9 * (pi / dt)` contributed by
each strictly discrete-time system (lines 1339-1341). -/
noncomputable def freqInteresting (syslist : List LTISys) : List ℝ :=
  (syslist.filter fun s => !s.isCtime).map fun s => Real.pi * 1 / s.dt * 0.9

/-- Minimum `np.min` over a list (callers guarantee nonemptiness). -/
noncomputable def listMin : List ℝ → ℝ
  | [] => 0
  | x :: xs => xs.foldl min x

/-- Maximum `np.max` over a list (callers guarantee nonemptiness). -/
noncomputable def listMax : List ℝ → ℝ
  | [] => 0
  | x :: xs => xs.foldl max x

/-- The selector `_default_frequency_range(syslist, Hz, number_of_samples,
feature_periphery_decades)` (lines 1314-1389), with `number_of_samples`
always supplied by the caller (the callers in this module always pass
`omega_num`). -/
noncomputable def defaultFrequencyRange (syslist : List LTISys) (hz : Bool)
    (n : ℕ) (periphery : ℝ) : List ℝ :=
  let features0 := allFeatures syslist
  let features1 := if features0 = [] then [1] else features0
  let features2 := if hz then features1.map (· / (2 * Real.pi)) else features1
  let logf := features2.map (Real.logb 10)
  let lspMin0 := ((nprint (listMin logf - periphery) : ℤ) : ℝ)
  let lspMax0 := ((nprint (listMax logf + periphery) : ℤ) : ℝ)
  let lspMin1 := if hz then lspMin0 + Real.logb 10 (2 * Real.pi) else lspMin0
  let lspMax1 := if hz then lspMax0 + Real.logb 10 (2 * Real.pi) else lspMax0
  let fi := freqInteresting syslist
  let lspMin2 := if fi = [] then lspMin1 else min lspMin1 (Real.logb 10 (listMin fi))
  let lspMax2 := if fi = [] then lspMax1 else max lspMax1 (Real.logb 10 (listMax fi))
  logspace lspMin2 lspMax2 n

/-- Error kinds of the embedded computations: a malformed
`omega_limits` pair (`ValueError`, line 1266), out-of-range array
indexing (`IndexError`, the `splane_contour[1]` access at line 734), and
the numpy `ValueError` for `argmin` over an empty array (line 743). -/
inductive FreqErr where
  | limitsLength
  | indexOutOfRange
  | emptyArgmin
  deriving DecidableEq

/-- The normalizer `_determine_omega_vector(syslist, omega_in, omega_limits,
omega_num, Hz)` (lines 1213-1272): explicit grid passed through, explicit limits
log-spaced, otherwise the automatic default range; the boolean records
whether the range was user-specified. -/
noncomputable def determineOmegaVector (syslist : List LTISys)
    (omegaIn omegaLimits : Option (List ℝ)) (n : ℕ) (hz : Bool) :
    Except FreqErr (List ℝ × Bool) :=
  match omegaIn with
  | some w => .ok (w, true)
  | none =>
    match omegaLimits with
    | none => .ok (defaultFrequencyRange syslist hz n 1, false)
    | some [lo, hi] =>
        .ok (logspace (Real.logb 10 lo) (Real.logb 10 hi) n, true)
    | some _ => .error .limitsLength

/-- The Nyquist-frequency clipping shared by `nyquist_plot` (lines
708-711) and `singular_values_plot` (lines 1150-1153): keep samples
strictly below `pi/dt` and append the Nyquist boundary. -/
noncomputable def clipToNyquist (nyq : ℝ) (w : List ℝ) : List ℝ :=
  (w.filter fun x => decide (x < nyq)) ++ [nyq]

/-- The omega grid a strictly discrete-time system is evaluated on:
clipped to the Nyquist boundary only when the range was auto-selected
(lines 705-711 and 1148-1153). -/
noncomputable def omegaSysDT (rangeGiven : Bool) (nyq : ℝ) (w : List ℝ) : List ℝ :=
  if rangeGiven then w else clipToNyquist nyq w

/-- The `indent_direction` configuration string, quotiented to the three
values the code compares against plus a representative for any other
string (`other`). -/
inductive IndentDir where
  | right
  | left
  | none
  | other
  deriving DecidableEq

/-- The s-plane pole set used for indentation: continuous-time poles
directly, discrete-time poles mapped by `log(z)/dt` after discarding
poles at the z-plane origin (lines 725-732). -/
noncomputable def splanePoles (sys : LTISys) : List ℂ :=
  if sys.isCtime then sys.poles
  else (sys.poles.filter fun z => !(decide (npIsClose (Complex.abs z) 0))).map
    fun z => Complex.log z / (sys.dt : ℂ)

/-- The lookup `abs(splane_poles - s).argmin()` followed by indexing: the
pole nearest to `s`, keeping the earliest on ties as `np.argmin` does;
the result is empty exactly when numpy raises a `ValueError` on an empty
array. -/
noncomputable def nearestPole (poles : List ℂ) (s : ℂ) : Option ℂ :=
  match poles with
  | [] => none
  | p :: ps =>
      some (ps.foldl
        (fun best q =>
          if Complex.abs (q - s) < Complex.abs (best - s) then q else best) p)

/-- The per-point indentation of the loop at lines 741-757.  In the
final `else` branch the source builds a `ValueError` object without
raising it, so the point is returned unchanged; the embedding reproduces
that behaviour. -/
noncomputable def indentPoint (poles : List ℂ) (r : ℝ) (dir : IndentDir)
    (s : ℂ) : Except FreqErr ℂ :=
  match nearestPole poles s with
  | Option.none => .error .emptyArgmin
  | Option.some p =>
    if Complex.abs (s - p) < r then
      if p.re < 0 ∨ (npIsClose p.re 0 ∧ dir = .right) then
        .ok (s + (Real.sqrt (r ^ 2 - (s - p).im ^ 2) : ℂ))
      else if p.re > 0 ∨ (npIsClose p.re 0 ∧ dir = .left) then
        .ok (s - (Real.sqrt (r ^ 2 - (s - p).im ^ 2) : ℂ))
      else
        .ok s
    else .ok s

/-- The loop of lines 741-757 applied to every contour point, stopping
at the first numpy exception. -/
noncomputable def indentAll (poles : List ℂ) (r : ℝ) (dir : IndentDir) :
    List ℂ → Except FreqErr (List ℂ)
  | [] => .ok []
  | s :: rest =>
    match indentPoint poles r dir s with
    | .error e => .error e
    | .ok s2 =>
      match indentAll poles r dir rest with
      | .error e => .error e
      | .ok rest2 => .ok (s2 :: rest2)

/-- The 50 extra quarter-circle points `1j * linspace(0, r, 50)`
prepended around a pole at the origin (lines 738-740). -/
noncomputable def quarterCirclePoints (r : ℝ) : List ℂ :=
  (linspace 0 r 50).map fun (x : ℝ) => Complex.I * (x : ℂ)

/-- The contour-indentation section of `nyquist_plot` (lines 723-757):
skipped entirely when the indentation direction is `none`; otherwise the
`splane_contour[1]` probe (an `IndexError` on contours shorter than 2),
the optional quarter-circle prepend, and the per-point indentation. -/
noncomputable def indentContour (poles : List ℂ) (r : ℝ) (dir : IndentDir)
    (rangeGiven : Bool) (contour : List ℂ) : Except FreqErr (List ℂ) :=
  if dir = IndentDir.none then .ok contour
  else
    match contour.get? 1 with
    | Option.none => .error .indexOutOfRange
    | Option.some c1 =>
      let contour2 :=
        if c1.im > r ∧
            (poles.any fun p => decide (npIsClose (Complex.abs p) 0)) = true ∧
            rangeGiven = false
        then quarterCirclePoints r ++ contour.drop 1
        else contour
      indentAll poles r dir contour2

/-- The contour built for one system inside `nyquist_plot`
(lines 702-763): Nyquist clipping for strictly discrete-time systems,
the s-plane contour `1j * omega`, pole indentation, and the final
`exp(s * dt)` mapping back to the z-plane for discrete time. -/
noncomputable def nyquistContour (sys : LTISys) (r : ℝ) (dir : IndentDir)
    (rangeGiven : Bool) (omega : List ℝ) : Except FreqErr (List ℂ) :=
  let wsys := if sys.isCtime then omega else omegaSysDT rangeGiven (Real.pi / sys.dt) omega
  let splane := wsys.map fun (w : ℝ) => Complex.I * (w : ℂ)
  (indentContour (splanePoles sys) r dir rangeGiven splane).map
    fun c => if sys.isCtime then c else c.map fun s => Complex.exp (s * (sys.dt : ℂ))

/-- The omega-selection stage of `nyquist_plot` (lines 687-691):
determine the frequency vector, then overwrite the first sample with 0
when the range was auto-selected. -/
noncomputable def nyquistOmega (syslist : List LTISys)
    (omegaIn omegaLimits : Option (List ℝ)) (n : ℕ) :
    Except FreqErr (List ℝ × Bool) :=
  (determineOmegaVector syslist omegaIn omegaLimits n false).map
    fun p => (if p.2 then p.1 else p.1.set 0 0, p.2)

/-- One pass of the initial-phase determination of `bode_plot`
(lines 275-284).  The loop variable `initial_phase` is modelled by an
`Option ℝ` (`None` or a number; a non-numeric value raises before any
system is processed).  The source reassigns `initial_phase` itself in
both branches, so the returned state is fed to the next system of the
batch. -/
noncomputable def initialPhaseStep (deg wrapPhaseIsTrue : Bool)
    (ip : Option ℝ) : ℝ × Option ℝ :=
  match ip with
  | Option.none =>
    let t := if wrapPhaseIsTrue then 0 else -Real.pi
    (t, some t)
  | Option.some x =>
    let t := if deg then x / 180 * Real.pi else x
    (t, some t)

/-- The initial-phase targets used for the successive systems of one
`bode_plot` call: the per-system loop of lines 251-310 threads the
mutated `initial_phase` variable from one iteration to the next. -/
noncomputable def batchInitialPhaseTargets (deg wrapPhaseIsTrue : Bool) :
    ℕ → Option ℝ → List ℝ
  | 0, _ => []
  | k + 1, ip =>
    (initialPhaseStep deg wrapPhaseIsTrue ip).1 ::
      batchInitialPhaseTargets deg wrapPhaseIsTrue k
        (initialPhaseStep deg wrapPhaseIsTrue ip).2

/-- The float mode of `wrap_phase` in `bode_plot` (lines 296-303): after
unwrapping, each sample is shifted up by
`2 pi * max(0, ceil((theta - phase) / (2 pi)))`, `theta` already in
radians. -/
noncomputable def wrapPhaseThreshold (theta : ℝ) (phase : List ℝ) : List ℝ :=
  phase.map fun x => x + 2 * Real.pi * max 0 ((⌈(theta - x) / (2 * Real.pi)⌉ : ℤ) : ℝ)

/-- Modelled from the spec: the `unwrap` helper imported from
`control/ctrlutil.py` is not part of the sources at hand; following the
description in the spec, successive samples are adjusted by the multiple of
`2 pi` that avoids artificial jumps greater than `pi`.  This is the
inner scan: each sample is shifted so it lands within `pi` of the
previously adjusted sample. -/
noncomputable def unwrapFrom (prev : ℝ) : List ℝ → List ℝ
  | [] => []
  | y :: ys =>
    let y2 := y - 2 * Real.pi * round ((y - prev) / (2 * Real.pi))
    y2 :: unwrapFrom y2 ys

/-- Modelled from the spec: phase unwrapping, the first sample is kept
and each later sample is adjusted by a multiple of `2 pi` relative to
its (adjusted) predecessor. -/
noncomputable def unwrap : List ℝ → List ℝ
  | [] => []
  | x :: xs => x :: unwrapFrom x xs

/-- Successive differences of a sequence, as `np.diff`. -/
noncomputable def diffs : List ℝ → List ℝ
  | [] => []
  | [_] => []
  | x :: y :: rest => (y - x) :: diffs (y :: rest)

/-- The encirclement counter of lines 766-770 of `nyquist_plot`:
`phase = -unwrap(angle(resp + 1))`, then
`count = int(np.round(sum(diff(phase)) / pi, 0))`; `np.angle` is the
principal argument. -/
noncomputable def countEncirclements (resp : List ℂ) : ℤ :=
  let phase := (unwrap (resp.map fun z => Complex.arg (z + 1))).map fun x => -x
  nprint ((diffs phase).sum / Real.pi)

/-- The principal wrap into `[-pi, pi)` performed on each successive
difference by the unwrapping scan:
`d - 2 pi * round(d / (2 pi))`. -/
noncomputable def wrapToPi (d : ℝ) : ℝ :=
  d - 2 * Real.pi * round (d / (2 * Real.pi))

/-! ## Helper lemmas -/

theorem nprint_intCast (n : ℤ) : nprint ((n : ℤ) : ℝ) = n := by
  unfold nprint
  rw [Int.fract_intCast]
  norm_num

theorem filter_lt_forall (c : ℝ) (l : List ℝ) :
    (l.filter fun x => decide (x < c)).Forall fun x => x < c := by
  induction l with
  | nil => simp [List.Forall]
  | cons a t ih =>
    by_cases h : a < c
    · simpa [List.filter_cons, h, List.forall_cons] using ih
    · simpa [List.filter_cons, h] using ih

theorem unwrapFrom_zero_replicate (n : ℕ) :
    unwrapFrom 0 (List.replicate n (0 : ℝ)) = List.replicate n 0 := by
  induction n with
  | zero => rfl
  | succ k ih =>
    rw [List.replicate_succ, unwrapFrom]
    simp only [sub_self, zero_div, round_zero, Int.cast_zero, mul_zero, sub_zero]
    rw [ih]

theorem diffs_replicate (c : ℝ) : ∀ n, diffs (List.replicate n c) = List.replicate (n - 1) 0
  | 0 => rfl
  | 1 => rfl
  | (n + 2) => by
    rw [List.replicate_succ, List.replicate_succ, diffs,
      show c :: List.replicate n c = List.replicate (n + 1) c from
        (List.replicate_succ c n).symm,
      diffs_replicate c (n + 1)]
    simp [List.replicate_succ]

/-! ## Claim theorems -/

/-- Claim C10: in wrap-with-threshold mode, unwrapping followed by the
elementwise shift `2 pi * max(0, ceil((theta - phase)/(2 pi)))` produces
a phase trace in which every sample is at least `theta`. -/
theorem claimC10_threshold_lower_bound (theta : ℝ) (raw : List ℝ) :
    (wrapPhaseThreshold theta (unwrap raw)).Forall fun x => theta ≤ x := by
  generalize unwrap raw = l
  induction l with
  | nil => simp [wrapPhaseThreshold, List.Forall]
  | cons a t ih =>
    simp only [wrapPhaseThreshold, List.map_cons, List.forall_cons] at ih ⊢
    refine ⟨?_, ih⟩
    have h2pi : (0 : ℝ) < 2 * Real.pi := Real.two_pi_pos
    have hc : (theta - a) / (2 * Real.pi) ≤
        ((⌈(theta - a) / (2 * Real.pi)⌉ : ℤ) : ℝ) := Int.le_ceil _
    have hm : (theta - a) / (2 * Real.pi) ≤
        max 0 ((⌈(theta - a) / (2 * Real.pi)⌉ : ℤ) : ℝ) :=
      hc.trans (le_max_right _ _)
    have := (div_le_iff₀ h2pi).mp hm
    linarith

/-- Claim C8: `countEncirclements` of a response that is constantly `0`
at every contour point returns exactly `0`. -/
theorem claimC8_zero_response (n : ℕ) :
    countEncirclements (List.replicate n 0) = 0 := by
  unfold countEncirclements
  have hmap : (List.replicate n (0 : ℂ)).map (fun z => Complex.arg (z + 1)) =
      List.replicate n 0 := by
    rw [List.map_replicate]
    simp [Complex.arg_one]
  rw [hmap]
  have hunwrap : unwrap (List.replicate n (0 : ℝ)) = List.replicate n 0 := by
    cases n with
    | zero => rfl
    | succ k =>
      rw [List.replicate_succ, unwrap, unwrapFrom_zero_replicate]
  rw [hunwrap, List.map_replicate]
  simp only [neg_zero]
  rw [diffs_replicate]
  simp only [List.sum_replicate, smul_zero, zero_div]
  simpa using nprint_intCast 0

/-- Claim C4: for a strictly discrete-time system with `dt = 1` and an
auto-selected range, the evaluation grid ends with exactly `pi` and
every other sample is strictly below `pi`; an explicit range is passed
through without clipping or appending. -/
theorem claimC4_nyquist_final_sample (grid : List ℝ) :
    (omegaSysDT false (Real.pi / 1) grid).getLast? = some Real.pi ∧
    (omegaSysDT false (Real.pi / 1) grid).dropLast.Forall (fun x => x < Real.pi) ∧
    omegaSysDT true (Real.pi / 1) grid = grid := by
  have h1 : Real.pi / 1 = Real.pi := div_one _
  rw [h1]
  refine ⟨?_, ?_, rfl⟩
  · simp [omegaSysDT, clipToNyquist, List.getLast?_append]
  · have h2 : (omegaSysDT false Real.pi grid).dropLast =
        grid.filter fun x => decide (x < Real.pi) := by
      simp [omegaSysDT, clipToNyquist]
    rw [h2]
    exact filter_lt_forall Real.pi grid

/-- Claim C2 (refuted by the code, which contradicts the documented
default): with `initial_phase` unspecified and `wrap_phase = False`, the
target of the first system is `-pi`, but the loop reuses the mutated
`initial_phase` variable, so with degree display enabled the target of
the second system is `-pi/180 * pi`, which differs from `-pi`. -/
theorem claimC2_initial_phase_mutation :
    batchInitialPhaseTargets true false 2 Option.none
      = [-Real.pi, -Real.pi / 180 * Real.pi] ∧
    -Real.pi / 180 * Real.pi ≠ -Real.pi := by
  constructor
  · simp [batchInitialPhaseTargets, initialPhaseStep]
  · intro h
    nlinarith [Real.pi_gt_three, Real.pi_lt_d2, Real.pi_pos, h]

/-- Claim C3: for the continuous-time system with the single stable pole
`-1` and `indent_radius = 1/10`, the per-point indentation adds
`sqrt(r^2 - (s-p).imag^2)` to the real part of any contour point closer
than `1/10` to the pole and returns every point at distance at least
`1/10` unchanged (for any indentation direction, since the pole is
stable). -/
theorem claimC3_stable_pole_indentation (dir : IndentDir) (w : ℝ) :
    indentPoint [(-1 : ℂ)] (1/10) dir (Complex.I * (w : ℂ)) =
      .ok (if Complex.abs (Complex.I * (w : ℂ) - (-1)) < 1/10
        then Complex.I * (w : ℂ) +
          (Real.sqrt ((1/10) ^ 2 - (Complex.I * (w : ℂ) - (-1)).im ^ 2) : ℂ)
        else Complex.I * (w : ℂ)) := by
  have hre : ((-1 : ℂ)).re < 0 := by simp
  by_cases habs : Complex.abs (Complex.I * (w : ℂ) - (-1)) < 1/10
  · simp only [indentPoint, nearestPole, List.foldl_nil, if_pos habs,
      if_pos (Or.inl hre)]
  · simp only [indentPoint, nearestPole, List.foldl_nil, if_neg habs]

/-- Claim C1 (refuted by the code, which contradicts the error contract
of the spec): for the pole `i` exactly on the imaginary axis, an
indentation direction that resolves to neither right nor left, and the
contour point `i` itself (within `indent_radius` of the pole), the
builder does not fail: the source builds a `ValueError` without raising
it and returns the contour with the point unperturbed. -/
theorem claimC1_unraised_direction_error :
    nyquistContour ⟨true, 0, [Complex.I], []⟩ (1/10) .other false [1, 2] =
      .ok [Complex.I, Complex.I * 2] := by
  have hI1 : Complex.I * ((1 : ℝ) : ℂ) = Complex.I := by push_cast; ring
  have hI2 : Complex.I * ((2 : ℝ) : ℂ) = Complex.I * 2 := by push_cast; ring
  have habs1 : Complex.abs (Complex.I * ((1 : ℝ) : ℂ) - Complex.I) = 0 := by
    rw [hI1]; simp
  have habs2 : Complex.abs (Complex.I * ((2 : ℝ) : ℂ) - Complex.I) = 1 := by
    rw [hI2, show Complex.I * 2 - Complex.I = Complex.I by ring]
    exact Complex.abs_I
  have hclose : ¬ npIsClose 1 0 := by unfold npIsClose; norm_num
  have hp1 : indentPoint [Complex.I] ((10 : ℝ))⁻¹ .other Complex.I = .ok Complex.I := by
    simp only [indentPoint, nearestPole, List.foldl_nil]
    norm_num [npIsClose, Complex.I_re]
    simp
  have hp2 : indentPoint [Complex.I] ((10 : ℝ))⁻¹ .other (Complex.I * 2) =
      .ok (Complex.I * 2) := by
    simp only [indentPoint, nearestPole, List.foldl_nil]
    norm_num [show Complex.I * 2 - Complex.I = Complex.I by ring, Complex.abs_I]
  simp only [nyquistContour, splanePoles, indentContour,
    omegaSysDT, if_true, List.map_cons, List.map_nil]
  norm_num [hclose, habs1, habs2, hI1, hI2]
  simp [indentAll, hp1, hp2, hclose, Except.map]

theorem indentAll_no_poles (r : ℝ) (dir : IndentDir) (l : List ℂ) (hne : l ≠ []) :
    indentAll [] r dir l = .error .emptyArgmin := by
  cases l with
  | nil => exact absurd rfl hne
  | cons x rest => rfl

theorem indentContour_no_poles (r : ℝ) (dir : IndentDir) (given : Bool)
    (contour : List ℂ) (hdir : dir ≠ .none) (hne : contour ≠ []) :
    ∃ e, indentContour [] r dir given contour = .error e := by
  rw [indentContour, if_neg hdir]
  cases contour with
  | nil => exact absurd rfl hne
  | cons c0 rest =>
    cases rest with
    | nil => exact ⟨.indexOutOfRange, rfl⟩
    | cons c1 rest2 =>
      refine ⟨.emptyArgmin, ?_⟩
      show (let contour2 :=
          if (c1.im > r ∧
              (([] : List ℂ).any fun p => decide (npIsClose (Complex.abs p) 0)) = true ∧
              given = false)
          then quarterCirclePoints r ++ (c0 :: c1 :: rest2).drop 1
          else c0 :: c1 :: rest2
        indentAll [] r dir contour2) = Except.error FreqErr.emptyArgmin
      rw [if_neg (by simp)]
      exact indentAll_no_poles r dir _ (by simp)

/-- Claim C5: for a continuous-time system with an empty pole set (for
example a static gain) and an indentation direction different from
`none`, the contour builder does not return a contour: the nearest-pole
lookup runs over an empty sequence (or the `splane_contour[1]` probe is
out of range) and the call fails with an exception. -/
theorem claimC5_empty_poles_error (r : ℝ) (dir : IndentDir) (given : Bool)
    (grid : List ℝ) (hdir : dir ≠ .none) (hne : grid ≠ []) :
    ∃ e, nyquistContour ⟨true, 0, [], []⟩ r dir given grid = .error e := by
  have hsp : splanePoles ⟨true, 0, [], []⟩ = [] := rfl
  have hc : (grid.map fun (w : ℝ) => Complex.I * (w : ℂ)) ≠ [] := by
    intro h
    exact hne (List.map_eq_nil_iff.mp h)
  obtain ⟨e, he⟩ := indentContour_no_poles r dir given
    (grid.map fun (w : ℝ) => Complex.I * (w : ℂ)) hdir hc
  refine ⟨e, ?_⟩
  simp only [nyquistContour, hsp, if_true]
  rw [he]
  rfl

/-- Witness for `claimC5_empty_poles_error` at a concrete input. -/
theorem claimC5_empty_poles_error_witness :
    (IndentDir.right ≠ IndentDir.none ∧ ([1, 2] : List ℝ) ≠ []) ∧
    ∃ e, nyquistContour ⟨true, 0, [], []⟩ (1/10) .right false [1, 2] = .error e :=
  ⟨⟨by decide, by simp⟩,
    claimC5_empty_poles_error (1/10) .right false [1, 2] (by decide) (by simp)⟩

theorem logspace_head (lo hi : ℝ) (m : ℕ) :
    (logspace lo hi (m + 1)).head? = some ((10 : ℝ) ^ lo) := by
  unfold logspace linspace
  rw [List.range_succ_eq_map]
  simp

theorem logspace_getLast (lo hi : ℝ) (m : ℕ) :
    (logspace lo hi (m + 1)).getLast? =
      some ((10 : ℝ) ^ (lo + (m : ℝ) * (hi - lo) / (m : ℝ))) := by
  unfold logspace linspace
  rw [List.range_succ]
  rw [List.map_append, List.map_append]
  simp only [List.map_cons, List.map_nil, List.getLast?_append]
  norm_num

/-- Claim C6: for the single continuous-time system with poles
`{-1, -1000}` and no zeros, the automatic selector with periphery 1
produces the log-spaced grid over decades `[-1, 4]` with the requested
number of samples, running from `0.1` to `10000` rad/s inclusive. -/
theorem claimC6_default_range_decades :
    defaultFrequencyRange [⟨true, 0, [-1, -1000], []⟩] false 1000 1 =
      logspace (-1) 4 1000 ∧
    (defaultFrequencyRange [⟨true, 0, [-1, -1000], []⟩] false 1000 1).head? =
      some (1/10) ∧
    (defaultFrequencyRange [⟨true, 0, [-1, -1000], []⟩] false 1000 1).getLast? =
      some 10000 := by
  have habs1 : Complex.abs (-1 : ℂ) = 1 := by
    rw [show ((-1 : ℂ)) = (((-1 : ℝ)) : ℂ) by norm_num, Complex.abs_ofReal]
    norm_num
  have habs2 : Complex.abs (-1000 : ℂ) = 1000 := by
    rw [show ((-1000 : ℂ)) = (((-1000 : ℝ)) : ℂ) by norm_num, Complex.abs_ofReal]
    norm_num
  have hfeat : allFeatures [⟨true, 0, [-1, -1000], []⟩] = [1, 1000] := by
    unfold allFeatures sysFeatures ctimeFeatures
    simp only [List.map_cons, List.map_nil, List.flatten, if_true,
      List.append_nil, habs1, habs2]
    rw [List.filter_cons, List.filter_cons, List.filter_nil]
    norm_num [npIsClose]
  have hlog1 : Real.logb 10 1 = 0 := Real.logb_one
  have hlog2 : Real.logb 10 1000 = 3 := by
    rw [show (1000 : ℝ) = 10 ^ (3 : ℕ) by norm_num, Real.logb_pow,
      Real.logb_self_eq_one] <;> norm_num
  have hfi : freqInteresting [⟨true, 0, [-1, -1000], []⟩] = [] := by
    unfold freqInteresting
    rfl
  have hmain : defaultFrequencyRange [⟨true, 0, [-1, -1000], []⟩] false 1000 1 =
      logspace (-1) 4 1000 := by
    unfold defaultFrequencyRange
    rw [hfeat, hfi]
    simp only [if_neg (by simp : ¬ ([1, 1000] : List ℝ) = []), if_true,
      Bool.false_eq_true, if_false, if_pos rfl, List.map_cons, List.map_nil,
      hlog1, hlog2]
    have hmin : listMin [(0 : ℝ), 3] = 0 := by
      unfold listMin
      simp only [List.foldl_cons, List.foldl_nil]
      norm_num
    have hmax : listMax [(0 : ℝ), 3] = 3 := by
      unfold listMax
      simp only [List.foldl_cons, List.foldl_nil]
      norm_num
    rw [hmin, hmax]
    rw [show (0 : ℝ) - 1 = ((-1 : ℤ) : ℝ) by norm_num,
      show (3 : ℝ) + 1 = ((4 : ℤ) : ℝ) by norm_num,
      nprint_intCast, nprint_intCast]
    norm_num
  refine ⟨hmain, ?_, ?_⟩
  · rw [hmain, show (1000 : ℕ) = 999 + 1 from rfl, logspace_head]
    rw [show ((10 : ℝ) ^ (-1 : ℝ)) = 1/10 by
      rw [show (-1 : ℝ) = ((-1 : ℤ) : ℝ) by norm_num, Real.rpow_intCast]
      norm_num]
  · rw [hmain, show (1000 : ℕ) = 999 + 1 from rfl, logspace_getLast]
    rw [show (-1 : ℝ) + (999 : ℕ) * (4 - (-1)) / (999 : ℕ) = (4 : ℝ) by norm_num]
    rw [show ((10 : ℝ) ^ (4 : ℝ)) = 10000 by
      rw [show (4 : ℝ) = ((4 : ℕ) : ℝ) by norm_num, Real.rpow_natCast]
      norm_num]

theorem nyquistContour_none (sys : LTISys) (r : ℝ) (given : Bool) (omega : List ℝ) :
    nyquistContour sys r .none given omega =
      .ok (let wsys := if sys.isCtime then omega
             else omegaSysDT given (Real.pi / sys.dt) omega
           let splane := wsys.map fun (w : ℝ) => Complex.I * (w : ℂ)
           if sys.isCtime then splane
           else splane.map fun s => Complex.exp (s * (sys.dt : ℂ))) := rfl

theorem defaultFrequencyRange_head_pos (syslist : List LTISys) (hz : Bool)
    (m : ℕ) (periphery : ℝ) :
    ∃ x, (defaultFrequencyRange syslist hz (m + 1) periphery).head? = some x ∧
      0 < x := by
  unfold defaultFrequencyRange
  exact ⟨_, logspace_head _ _ m, Real.rpow_pos_of_pos (by norm_num) _⟩

theorem head?_set_zero (l : List ℝ) (h : l ≠ []) : (l.set 0 0).head? = some 0 := by
  cases l with
  | nil => exact absurd rfl h
  | cons a t => rfl

/-- Claim C7: when neither an explicit omega grid nor explicit limits are
supplied to `nyquist_plot`, the first (positive) sample of the
auto-selected grid is overwritten with exactly 0, so the s-plane contour
starts at the origin, and for a strictly discrete-time system the
z-plane contour starts at exactly 1. -/
theorem claimC7_contour_origin (syslist : List LTISys) (n : ℕ)
    (dt r dt0 : ℝ) (P Z : List ℂ) (hn : 0 < n) (hdt : 0 < dt) :
    nyquistOmega syslist Option.none Option.none n =
      .ok ((defaultFrequencyRange syslist false n 1).set 0 0, false) ∧
    (∃ x, (defaultFrequencyRange syslist false n 1).head? = some x ∧ 0 < x) ∧
    ((defaultFrequencyRange syslist false n 1).set 0 0).head? = some 0 ∧
    (nyquistContour ⟨true, dt0, P, Z⟩ r .none false
        ((defaultFrequencyRange syslist false n 1).set 0 0) =
      .ok (((defaultFrequencyRange syslist false n 1).set 0 0).map
        fun (w : ℝ) => Complex.I * (w : ℂ)) ∧
      (((defaultFrequencyRange syslist false n 1).set 0 0).map
        fun (w : ℝ) => Complex.I * (w : ℂ)).head? = some 0) ∧
    (∃ zc, nyquistContour ⟨false, dt, P, Z⟩ r .none false
        ((defaultFrequencyRange syslist false n 1).set 0 0) = .ok zc ∧
      zc.head? = some 1) := by
  obtain ⟨m, rfl⟩ : ∃ m, n = m + 1 := by
    cases n with
    | zero => exact absurd hn (by norm_num)
    | succ k => exact ⟨k, rfl⟩
  obtain ⟨x, hx, hxpos⟩ := defaultFrequencyRange_head_pos syslist false m 1
  have hne : defaultFrequencyRange syslist false (m + 1) 1 ≠ [] := by
    intro h
    rw [h] at hx
    exact Option.noConfusion hx
  obtain ⟨t, ht⟩ : ∃ t, (defaultFrequencyRange syslist false (m + 1) 1).set 0 0 =
      0 :: t := by
    rcases hl : defaultFrequencyRange syslist false (m + 1) 1 with _ | ⟨a, t⟩
    · exact absurd hl hne
    · exact ⟨t, rfl⟩
  refine ⟨rfl, ⟨x, hx, hxpos⟩, ?_, ⟨nyquistContour_none _ _ _ _, ?_⟩, ?_⟩
  · exact head?_set_zero _ hne
  · rw [ht]
    simp
  · rw [nyquistContour_none]
    refine ⟨_, rfl, ?_⟩
    show (((omegaSysDT false (Real.pi / dt)
        ((defaultFrequencyRange syslist false (m + 1) 1).set 0 0)).map
          fun (w : ℝ) => Complex.I * (w : ℂ)).map
            fun s => Complex.exp (s * ((dt : ℝ) : ℂ))).head? = some 1
    have h0 : decide ((0 : ℝ) < Real.pi / dt) = true :=
      decide_eq_true (div_pos Real.pi_pos hdt)
    have hws : omegaSysDT false (Real.pi / dt)
        ((defaultFrequencyRange syslist false (m + 1) 1).set 0 0) =
        0 :: ((t.filter fun x => decide (x < Real.pi / dt)) ++ [Real.pi / dt]) := by
      unfold omegaSysDT clipToNyquist
      rw [if_neg (by simp), ht, List.filter_cons]
      simp only [decide_eq_true_eq]
      rw [if_pos (div_pos Real.pi_pos hdt)]
      rfl
    rw [hws]
    simp

/-- Witness for `claimC7_contour_origin` at a concrete input. -/
theorem claimC7_contour_origin_witness :
    ((0 < 1) ∧ ((0 : ℝ) < 1)) ∧
    (nyquistOmega [] Option.none Option.none 1 =
      .ok ((defaultFrequencyRange [] false 1 1).set 0 0, false) ∧
    (∃ x, (defaultFrequencyRange [] false 1 1).head? = some x ∧ 0 < x) ∧
    ((defaultFrequencyRange [] false 1 1).set 0 0).head? = some 0 ∧
    (nyquistContour ⟨true, 0, [], []⟩ 0 .none false
        ((defaultFrequencyRange [] false 1 1).set 0 0) =
      .ok (((defaultFrequencyRange [] false 1 1).set 0 0).map
        fun (w : ℝ) => Complex.I * (w : ℂ)) ∧
      (((defaultFrequencyRange [] false 1 1).set 0 0).map
        fun (w : ℝ) => Complex.I * (w : ℂ)).head? = some 0) ∧
    (∃ zc, nyquistContour ⟨false, 1, [], []⟩ 0 .none false
        ((defaultFrequencyRange [] false 1 1).set 0 0) = .ok zc ∧
      zc.head? = some 1)) :=
  ⟨⟨by norm_num, by norm_num⟩,
    claimC7_contour_origin [] 1 1 0 0 [] [] (by norm_num) (by norm_num)⟩

theorem wrapToPi_bounds (d : ℝ) : -Real.pi ≤ wrapToPi d ∧ wrapToPi d < Real.pi := by
  unfold wrapToPi
  have h2pi : (0 : ℝ) < 2 * Real.pi := Real.two_pi_pos
  have hd : 2 * Real.pi * (d / (2 * Real.pi)) = d :=
    mul_div_cancel₀ d (ne_of_gt h2pi)
  have h1 : ((round (d / (2 * Real.pi)) : ℤ) : ℝ) ≤ d / (2 * Real.pi) + 1/2 := by
    rw [round_eq]
    exact_mod_cast Int.floor_le _
  have h2 : d / (2 * Real.pi) + 1/2 - 1 < ((round (d / (2 * Real.pi)) : ℤ) : ℝ) := by
    rw [round_eq]
    exact_mod_cast Int.sub_one_lt_floor _
  constructor
  · nlinarith
  · nlinarith

theorem wrapToPi_add_two_pi_int (d : ℝ) (k : ℤ) :
    wrapToPi (d + 2 * Real.pi * k) = wrapToPi d := by
  unfold wrapToPi
  have h2pi : (0 : ℝ) < 2 * Real.pi := Real.two_pi_pos
  have hdiv : (d + 2 * Real.pi * k) / (2 * Real.pi) = d / (2 * Real.pi) + k := by
    field_simp
    ring
  rw [hdiv, round_add_int]
  push_cast
  ring

theorem wrapToPi_eq_of (d w : ℝ) (k : ℤ) (hw1 : -Real.pi ≤ w) (hw2 : w < Real.pi)
    (hk : d = w + 2 * Real.pi * k) : wrapToPi d = w := by
  rw [hk, wrapToPi_add_two_pi_int]
  unfold wrapToPi
  have h2pi : (0 : ℝ) < 2 * Real.pi := Real.two_pi_pos
  have hround : round (w / (2 * Real.pi)) = 0 := by
    rw [round_eq]
    apply Int.floor_eq_zero_iff.mpr
    rw [Set.mem_Ico]
    constructor
    · have hdd : -Real.pi / (2 * Real.pi) ≤ w / (2 * Real.pi) :=
        (div_le_div_iff_of_pos_right h2pi).mpr hw1
      have he : -Real.pi / (2 * Real.pi) = -(1/2) := by
        rw [div_eq_iff (ne_of_gt h2pi)]
        ring
      linarith [he ▸ hdd]
    · have hdd : w / (2 * Real.pi) < Real.pi / (2 * Real.pi) :=
        (div_lt_div_iff_of_pos_right h2pi).mpr hw2
      have he : Real.pi / (2 * Real.pi) = 1/2 := by
        rw [div_eq_iff (ne_of_gt h2pi)]
        ring
      linarith [he ▸ hdd]
  rw [hround]
  simp

theorem wrapToPi_neg (d : ℝ) (h : wrapToPi d ≠ -Real.pi) :
    wrapToPi (-d) = -wrapToPi d := by
  obtain ⟨hb1, hb2⟩ := wrapToPi_bounds d
  have hlt : -Real.pi < wrapToPi d := lt_of_le_of_ne hb1 (Ne.symm h)
  refine wrapToPi_eq_of (-d) (-wrapToPi d) (-round (d / (2 * Real.pi)))
    (by linarith) (by linarith) ?_
  unfold wrapToPi
  push_cast
  ring

theorem fract_eq_zero_floor (x : ℝ) (h : Int.fract x = 0) : x = (⌊x⌋ : ℝ) := by
  have := Int.fract_add_floor x
  rw [h] at this
  linarith

theorem ceil_of_fract_ne_zero (x : ℝ) (h : Int.fract x ≠ 0) : ⌈x⌉ = ⌊x⌋ + 1 := by
  have h1 : ⌈x⌉ ≤ ⌊x⌋ + 1 := Int.ceil_le_floor_add_one x
  have h2 : (⌊x⌋ : ℝ) < x :=
    lt_of_le_of_ne (Int.floor_le x)
      (fun heq => h (by rw [Int.fract, ← heq]; simp))
  have h3 : (⌊x⌋ : ℝ) ≤ (⌈x⌉ : ℝ) := h2.le.trans (Int.le_ceil x)
  have h4 : ⌊x⌋ < ⌈x⌉ := by
    rcases lt_or_eq_of_le (by exact_mod_cast h3 : ⌊x⌋ ≤ ⌈x⌉) with hlt | heq
    · exact hlt
    · exfalso
      have : x ≤ (⌊x⌋ : ℝ) := by
        rw [heq]
        exact_mod_cast Int.le_ceil x
      linarith
  omega

theorem nprint_neg (x : ℝ) : nprint (-x) = -nprint x := by
  unfold nprint
  by_cases h0 : Int.fract x = 0
  · have hx : x = (⌊x⌋ : ℝ) := fract_eq_zero_floor x h0
    rw [hx, ← Int.cast_neg, Int.fract_intCast, Int.floor_intCast,
      Int.fract_intCast, Int.floor_intCast]
    norm_num
  · have hneg : Int.fract (-x) = 1 - Int.fract x := Int.fract_neg h0
    have hfloor : ⌊-x⌋ = -⌊x⌋ - 1 := by
      rw [Int.floor_neg, ceil_of_fract_ne_zero x h0]
      ring
    have hf0 : 0 < Int.fract x :=
      lt_of_le_of_ne (Int.fract_nonneg x) (Ne.symm h0)
    have hf1 : Int.fract x < 1 := Int.fract_lt_one x
    rw [hneg, hfloor]
    rcases lt_trichotomy (Int.fract x) (1/2) with h | h | h
    · rw [if_neg (show ¬ (1 - Int.fract x < 1/2) by linarith),
        if_pos (show 1/2 < 1 - Int.fract x by linarith),
        if_pos h]
      ring
    · have hpar : Even (-⌊x⌋ - 1) ↔ ¬ Even ⌊x⌋ := by
        rw [show -⌊x⌋ - 1 = -(⌊x⌋ + 1) by ring, even_neg, Int.even_add_one]
      rw [h]
      rw [if_neg (show ¬ ((1 : ℝ) - 1/2 < 1/2) by norm_num),
        if_neg (show ¬ ((1 : ℝ)/2 < 1 - 1/2) by norm_num),
        if_neg (show ¬ ((1 : ℝ)/2 < 1/2) by norm_num),
        if_neg (show ¬ ((1 : ℝ)/2 < 1/2) by norm_num)]
      by_cases he : Even ⌊x⌋
      · rw [if_neg (by rw [hpar]; exact not_not_intro he), if_pos he]
        ring
      · rw [if_pos (hpar.mpr he), if_neg he]
        ring
    · rw [if_pos (show 1 - Int.fract x < 1/2 by linarith),
        if_neg (show ¬ Int.fract x < 1/2 by linarith),
        if_pos h]
      ring

theorem diffs_map_neg :
    ∀ l : List ℝ, diffs (l.map fun x => -x) = (diffs l).map fun x => -x
  | [] => rfl
  | [_] => rfl
  | (x :: y :: rest) => by
    have ih := diffs_map_neg (y :: rest)
    simp only [List.map_cons] at ih
    simp only [List.map_cons, diffs]
    rw [ih, show (-y - -x) = -(y - x) by ring]

theorem diffs_concat : ∀ (A : List ℝ) (a x : ℝ),
    diffs (a :: A ++ [x]) = diffs (a :: A) ++ [x - A.getLastD a]
  | [], a, x => by simp [diffs]
  | (b :: A2), a, x => by
    show diffs (a :: b :: (A2 ++ [x])) = _
    rw [show diffs (a :: b :: (A2 ++ [x])) =
        (b - a) :: diffs (b :: (A2 ++ [x])) from rfl]
    rw [show b :: (A2 ++ [x]) = b :: A2 ++ [x] from rfl, diffs_concat A2 b x]
    rw [show diffs (a :: b :: A2) = (b - a) :: diffs (b :: A2) from rfl]
    rw [List.cons_append, List.getLastD_cons]

theorem diffs_reverse :
    ∀ l : List ℝ, diffs l.reverse = ((diffs l).map fun d => -d).reverse
  | [] => rfl
  | [_] => rfl
  | (x :: y :: rest) => by
    rw [List.reverse_cons]
    rcases hrev : (y :: rest).reverse with _ | ⟨b, B⟩
    · have hlen := congrArg List.length hrev
      simp at hlen
    · have hlast : B.getLastD b = y := by
        have h1 : (b :: B).getLastD 0 = y := by
          rw [← hrev]
          rw [List.getLastD_eq_getLast?, List.getLast?_reverse]
          rfl
        rw [List.getLastD_cons] at h1
        exact h1
      rw [diffs_concat B b x, hlast, ← hrev, diffs_reverse (y :: rest)]
      rw [show diffs (x :: y :: rest) = (y - x) :: diffs (y :: rest) from rfl]
      rw [List.map_cons, List.reverse_cons]
      rw [show x - y = -(y - x) by ring]

theorem sum_map_neg (l : List ℝ) : (l.map fun x => -x).sum = -l.sum := by
  induction l with
  | nil => simp
  | cons a t ih =>
    simp only [List.map_cons, List.sum_cons, ih]
    ring

theorem diffs_unwrapFrom :
    ∀ (l : List ℝ) (a prev : ℝ), (∃ k : ℤ, prev = a - 2 * Real.pi * k) →
      diffs (prev :: unwrapFrom prev l) = (diffs (a :: l)).map wrapToPi
  | [], a, prev, _ => rfl
  | (y :: ys), a, prev, ⟨k, hk⟩ => by
    rw [unwrapFrom]
    show (y - 2 * Real.pi * (round ((y - prev) / (2 * Real.pi)) : ℤ) - prev) ::
        diffs ((y - 2 * Real.pi * (round ((y - prev) / (2 * Real.pi)) : ℤ)) ::
          unwrapFrom (y - 2 * Real.pi * (round ((y - prev) / (2 * Real.pi)) : ℤ)) ys) =
      (diffs (a :: y :: ys)).map wrapToPi
    have hstep : y - 2 * Real.pi * (round ((y - prev) / (2 * Real.pi)) : ℤ) - prev =
        wrapToPi (y - a) := by
      have h1 : y - prev = (y - a) + 2 * Real.pi * k := by
        rw [hk]
        ring
      rw [← wrapToPi_add_two_pi_int (y - a) k, ← h1]
      unfold wrapToPi
      ring
    have hrec : diffs ((y - 2 * Real.pi * (round ((y - prev) / (2 * Real.pi)) : ℤ)) ::
          unwrapFrom (y - 2 * Real.pi * (round ((y - prev) / (2 * Real.pi)) : ℤ)) ys) =
        (diffs (y :: ys)).map wrapToPi :=
      diffs_unwrapFrom ys y _ ⟨round ((y - prev) / (2 * Real.pi)), rfl⟩
    rw [hstep, hrec]
    rfl

theorem diffs_unwrap (l : List ℝ) :
    diffs (unwrap l) = (diffs l).map wrapToPi := by
  cases l with
  | nil => rfl
  | cons a t =>
    rw [unwrap]
    exact diffs_unwrapFrom t a a ⟨0, by push_cast; ring⟩

theorem countEncirclements_eq (resp : List ℂ) :
    countEncirclements resp =
      nprint (-(((diffs (resp.map fun z => Complex.arg (z + 1))).map wrapToPi).sum)
        / Real.pi) := by
  unfold countEncirclements
  simp only [diffs_map_neg, sum_map_neg, diffs_unwrap, neg_div]

theorem sum_map_wrap_neg (D : List ℝ) (h : ∀ d ∈ D, wrapToPi d ≠ -Real.pi) :
    (D.map fun d => wrapToPi (-d)).sum = -((D.map wrapToPi).sum) := by
  induction D with
  | nil => simp
  | cons a t ih =>
    simp only [List.map_cons, List.sum_cons]
    rw [wrapToPi_neg a (h a (by simp)), ih (fun d hd => h d (by simp [hd]))]
    ring

/-- Claim C9 (amended): reversing the response sequence negates
`countEncirclements` provided no successive difference of the shifted
phase `angle(resp + 1)` is congruent to `pi` modulo `2 pi` (its
principal wrap is not `-pi`); at such exact half-turn jumps the
asymmetry of the wrap interval `[-pi, pi)` breaks the sign symmetry. -/
theorem claimC9_reverse_negation (resp : List ℂ)
    (h : (diffs (resp.map fun z => Complex.arg (z + 1))).Forall
      fun d => wrapToPi d ≠ -Real.pi) :
    countEncirclements resp.reverse = -countEncirclements resp := by
  rw [countEncirclements_eq, countEncirclements_eq]
  rw [List.map_reverse, diffs_reverse, List.map_reverse, List.sum_reverse,
    List.map_map]
  have hsum : ((diffs (resp.map fun z => Complex.arg (z + 1))).map
      (wrapToPi ∘ fun d => -d)).sum =
      -(((diffs (resp.map fun z => Complex.arg (z + 1))).map wrapToPi).sum) :=
    sum_map_wrap_neg _ (List.forall_iff_forall_mem.mp h)
  rw [hsum, ← nprint_neg]
  congr 1
  ring

/-- Witness for `claimC9_reverse_negation` at a concrete input. -/
theorem claimC9_reverse_negation_witness :
    ((diffs ([(0 : ℂ), 0].map fun z => Complex.arg (z + 1))).Forall
      fun d => wrapToPi d ≠ -Real.pi) ∧
    countEncirclements (List.reverse [(0 : ℂ), 0]) =
      -countEncirclements [(0 : ℂ), 0] := by
  have hf : (diffs ([(0 : ℂ), 0].map fun z => Complex.arg (z + 1))).Forall
      fun d => wrapToPi d ≠ -Real.pi := by
    have hm : ([(0 : ℂ), 0].map fun z => Complex.arg (z + 1)) = [0, 0] := by
      simp [Complex.arg_one]
    rw [hm]
    simp only [diffs, List.Forall]
    have hw : wrapToPi (0 - 0) = 0 := by
      unfold wrapToPi
      simp
    rw [hw]
    exact fun hc => Real.pi_ne_zero (by linarith)
  exact ⟨hf, claimC9_reverse_negation [(0 : ℂ), 0] hf⟩

/-- Claim C9 as stated is false: for the response `[0, -2]` the shifted
phase jumps by exactly `pi`, and both the original and the reversed
sequence yield encirclement count `1`, not opposite counts. -/
theorem claimC9_counterexample :
    countEncirclements (List.reverse [(0 : ℂ), -2]) ≠
      -countEncirclements [(0 : ℂ), -2] := by
  have harg : ([(0 : ℂ), -2].map fun z => Complex.arg (z + 1)) = [0, Real.pi] := by
    simp only [List.map_cons, List.map_nil]
    rw [show ((0 : ℂ) + 1) = 1 by ring, show ((-2 : ℂ) + 1) = -1 by ring,
      Complex.arg_one, Complex.arg_neg_one]
  have hargrev : (([(0 : ℂ), -2].reverse).map fun z => Complex.arg (z + 1)) =
      [Real.pi, 0] := by
    rw [show ([(0 : ℂ), -2].reverse) = [(-2 : ℂ), 0] from rfl]
    simp only [List.map_cons, List.map_nil]
    rw [show ((0 : ℂ) + 1) = 1 by ring, show ((-2 : ℂ) + 1) = -1 by ring,
      Complex.arg_one, Complex.arg_neg_one]
  have hwpi : wrapToPi Real.pi = -Real.pi := by
    unfold wrapToPi
    rw [show Real.pi / (2 * Real.pi) = 1/2 by
      rw [div_eq_iff (ne_of_gt Real.two_pi_pos)]; ring]
    rw [show round ((1 : ℝ)/2) = 1 by rw [round_eq]; norm_num]
    push_cast
    ring
  have hwnpi : wrapToPi (-Real.pi) = -Real.pi := by
    unfold wrapToPi
    rw [show -Real.pi / (2 * Real.pi) = -(1/2) by
      rw [div_eq_iff (ne_of_gt Real.two_pi_pos)]; ring]
    rw [show round (-(1/2) : ℝ) = 0 by rw [round_eq]; norm_num]
    push_cast
    ring
  have hone : nprint 1 = 1 := by simpa using nprint_intCast 1
  have h1 : countEncirclements [(0 : ℂ), -2] = 1 := by
    rw [countEncirclements_eq, harg]
    rw [show diffs [(0 : ℝ), Real.pi] = [Real.pi - 0] from rfl]
    simp only [List.map_cons, List.map_nil, List.sum_cons, List.sum_nil,
      sub_zero, hwpi]
    rw [show -(-Real.pi + 0) / Real.pi = 1 by
      rw [add_zero, neg_neg, div_self Real.pi_ne_zero]]
    exact hone
  have h2 : countEncirclements (List.reverse [(0 : ℂ), -2]) = 1 := by
    rw [countEncirclements_eq, hargrev]
    rw [show diffs [Real.pi, (0 : ℝ)] = [0 - Real.pi] from rfl]
    simp only [List.map_cons, List.map_nil, List.sum_cons, List.sum_nil,
      zero_sub, hwnpi]
    rw [show -(-Real.pi + 0) / Real.pi = 1 by
      rw [add_zero, neg_neg, div_self Real.pi_ne_zero]]
    exact hone
  rw [h1, h2]
  norm_num
